import Mathlib

/-!
Verification of the `bao` streaming decoder (`src/decoder.rs`) against its
natural-language specification.

The decoder itself (`Decoder` and its methods `new`, `len`, `state`, `seek`,
`needed`, `feed`, `feed_header`, `feed_chunk`, `feed_node`) is translated
directly from `src/decoder.rs`.  The external collaborators it consumes
(`Region`, `Node`, `Unverified::read_verify`, `Region::parse_node`,
`Region::from_header_bytes`, the constants `HEADER_SIZE` / `NODE_SIZE` /
`CHUNK_SIZE`, and the digest function) live outside `src/`; they are modelled
from the spec (sections 3 and 6) and bundled in the `Ext` structure, over which
the whole development is parametric.

Conventions of the embedding:
- bytes are `Nat`, buffers are `List Nat`, digests are `Nat`;
- `u64` / `usize` quantities are `Nat`; subtraction sites are guarded by
  proved invariants (`start <= position`) so truncated subtraction agrees
  with the machine arithmetic of the source;
- the traversal stack keeps its top at the HEAD of the list (the Rust `Vec`
  keeps it at the back): `push` is cons, `pop` is tail, `Vec::last` is
  `head?`, and the Rust "first (bottom) node" is `getLast?`;
- Rust's `&mut self` methods become state-passing functions; `feed` returns
  the updated decoder in both the success and the error branch, mirroring
  the fact that every `?` early return in the source happens before any
  field mutation.
-/

namespace Bao

/-- Modelled from the spec (section 7): the three error kinds surfaced by
`feed`; `ShortInput` is recoverable, the other two are fatal. -/
inductive Error where
  | ShortInput
  | HashMismatch
  | MalformedNode
  deriving DecidableEq, Repr

/-- Modelled from the spec (section 3): a `Region` is one contiguous span
`[start, end)` of original content, plus the offset of its encoded
representation and the digest those encoded bytes must satisfy. -/
structure Region where
  start : Nat
  end_ : Nat
  encoded_offset : Nat
  hash : Nat
  deriving DecidableEq, Repr

/-- Modelled from the spec (section 3): derived `len() = end - start`. -/
def Region.len (r : Region) : Nat := r.end_ - r.start

/-- Modelled from the spec (section 3): derived
`contains(pos) = start <= pos < end`. -/
def Region.contains (r : Region) (pos : Nat) : Bool :=
  decide (r.start ≤ pos) && decide (pos < r.end_)

/-- Modelled from the spec (section 3): a parsed tree record holding exactly
two child Regions, produced only by `Region::parse_node`. -/
structure Node where
  left : Region
  right : Region
  deriving DecidableEq, Repr

/-- Modelled from the spec (sections 3 and 4.3): a Node's combined region is
the union of its two contiguous children, so membership is tested against
`left.start` and `right.end`. -/
def Node.contains (n : Node) (pos : Nat) : Bool :=
  decide (n.left.start ≤ pos) && decide (pos < n.right.end_)

/-- The external collaborators of the decoder, bundled: the three layout
constants, the digest function over byte buffers, and the two record
parsers.  `parseHeader` returns the content length, the root region's
encoded offset and the root region's digest as parsed from verified header
bytes; `decodeNode` returns the two candidate child regions a node record
parses to (`parse_node` then checks that they tile the parent).  All
results of this file hold for every instantiation. -/
structure Ext where
  HEADER_SIZE : Nat
  NODE_SIZE : Nat
  CHUNK_SIZE : Nat
  hash : List Nat → Nat
  parseHeader : List Nat → Nat × Nat × Nat
  decodeNode : Region → List Nat → Region × Region

/-- Modelled from the spec (section 6): `UnverifiedInput::read_verify(len,
digest)` yields exactly `len` verified bytes, fails with `ShortInput` when
fewer than `len` bytes are available, and with `HashMismatch` when the bytes
are there but do not satisfy the digest. -/
def readVerify (E : Ext) (input : List Nat) (len : Nat) (digest : Nat) :
    Except Error (List Nat) :=
  if input.length < len then .error .ShortInput
  else if E.hash (input.take len) ≠ digest then .error .HashMismatch
  else .ok (input.take len)

/-- Modelled from the spec (sections 3 and 6): `Region::from_header_bytes` is
infallible on already-verified bytes and yields the header Region, covering
`[0, content_length)`. -/
def Region.from_header_bytes (E : Ext) (bytes : List Nat) : Region :=
  { start := 0
    end_ := (E.parseHeader bytes).1
    encoded_offset := (E.parseHeader bytes).2.1
    hash := (E.parseHeader bytes).2.2 }

/-- Modelled from the spec (section 6): `Region::parse_node` fails with
`MalformedNode` when the two children's spans are not contiguous or do not
exactly tile the parent span. -/
def Region.parse_node (E : Ext) (r : Region) (bytes : List Nat) :
    Except Error Node :=
  let c := E.decodeNode r bytes
  if c.1.start = r.start ∧ c.1.end_ = c.2.start ∧ c.2.end_ = r.end_ then
    .ok ⟨c.1, c.2⟩
  else
    .error .MalformedNode

/-- From `src/decoder.rs`: the four-way state. -/
inductive State where
  | NoHeader
  | Eof
  | Chunk (r : Region)
  | Node (r : Region)
  deriving DecidableEq, Repr

/-- From `src/decoder.rs`: the decoder's fields.  The stack keeps its top at
the head of the list (the Rust `Vec` keeps it at the back). -/
structure Decoder where
  header_hash : Nat
  header : Option Region
  position : Nat
  stack : List Node
  deriving DecidableEq, Repr

/-- From `src/decoder.rs`: `Decoder::new`. -/
def Decoder.new (header_hash : Nat) : Decoder :=
  { header_hash := header_hash, header := none, position := 0, stack := [] }

/-- From `src/decoder.rs`: `Decoder::len`. -/
def Decoder.len (d : Decoder) : Option Nat := d.header.map Region.len

/-- The region enclosing `position` given the header region: whichever child
of the top stack node contains `position`, or the header when the stack is
empty.  This is the resolver inlined in `Decoder::state`. -/
def currentRegion (d : Decoder) (header : Region) : Region :=
  match d.stack.head? with
  | some node =>
      if node.left.contains d.position then node.left else node.right
  | none => header

/-- From `src/decoder.rs`: `Decoder::state`. -/
def Decoder.state (E : Ext) (d : Decoder) : State :=
  match d.header with
  | none => .NoHeader
  | some header =>
      if header.end_ ≤ d.position then .Eof
      else
        let current_region := currentRegion d header
        if current_region.len ≤ E.CHUNK_SIZE then .Chunk current_region
        else .Node current_region

/-- From `src/decoder.rs`: `Decoder::seek`.  Sets `position`, short-circuits
when there is no header or the position is at or past the header end, and
otherwise pops nodes whose combined region does not contain the new
position. -/
def Decoder.seek (d : Decoder) (position : Nat) : Decoder :=
  let d := { d with position := position }
  let header_end := (d.header.map Region.end_).getD 0
  if header_end ≤ d.position then d
  else { d with stack := d.stack.dropWhile fun node => ! node.contains position }

/-- From `src/decoder.rs`: `Decoder::needed`. -/
def Decoder.needed (E : Ext) (d : Decoder) : Nat × Nat :=
  match d.state E with
  | .NoHeader => (0, E.HEADER_SIZE)
  | .Eof => (0, 0)
  | .Chunk r => (r.encoded_offset, r.len)
  | .Node r => (r.encoded_offset, E.NODE_SIZE)

/-- From `src/decoder.rs`: `Decoder::feed_header`.  The decoder is returned
unchanged on error: in the source, the only fallible step precedes the
mutation. -/
def Decoder.feed_header (E : Ext) (d : Decoder) (input : List Nat) :
    Decoder × Except Error (Nat × Option (List Nat)) :=
  match readVerify E input E.HEADER_SIZE d.header_hash with
  | .error e => (d, .error e)
  | .ok header_bytes =>
      ({ d with header := some (Region.from_header_bytes E header_bytes) },
       .ok (E.HEADER_SIZE, none))

/-- From `src/decoder.rs`: `Decoder::feed_chunk`.  On success the whole chunk
is verified, the suffix from `chunk_offset = position - region.start` is
returned and the decoder seeks to `region.end`; `consumed` is the full chunk
length. -/
def Decoder.feed_chunk (E : Ext) (d : Decoder) (input : List Nat)
    (region : Region) : Decoder × Except Error (Nat × Option (List Nat)) :=
  match readVerify E input region.len region.hash with
  | .error e => (d, .error e)
  | .ok chunk_bytes =>
      let chunk_offset := d.position - region.start
      let ret := chunk_bytes.drop chunk_offset
      (d.seek region.end_, .ok (chunk_bytes.length, some ret))

/-- From `src/decoder.rs`: `Decoder::feed_node`.  On success the parsed node
is pushed; both fallible steps precede the mutation, so the decoder is
returned unchanged on error. -/
def Decoder.feed_node (E : Ext) (d : Decoder) (input : List Nat)
    (region : Region) : Decoder × Except Error (Nat × Option (List Nat)) :=
  match readVerify E input E.NODE_SIZE region.hash with
  | .error e => (d, .error e)
  | .ok node_bytes =>
      match Region.parse_node E region node_bytes with
      | .error e => (d, .error e)
      | .ok node => ({ d with stack := node :: d.stack }, .ok (E.NODE_SIZE, none))

/-- From `src/decoder.rs`: `Decoder::feed`, dispatching on the current
state. -/
def Decoder.feed (E : Ext) (d : Decoder) (input : List Nat) :
    Decoder × Except Error (Nat × Option (List Nat)) :=
  match d.state E with
  | .NoHeader => d.feed_header E input
  | .Eof => (d, .ok (0, none))
  | .Chunk r => d.feed_chunk E input r
  | .Node r => d.feed_node E input r

/-- The decoder states reachable from `Decoder::new` by `seek` calls and
successful `feed` calls. -/
inductive Reachable (E : Ext) : Decoder → Prop where
  | new (h : Nat) : Reachable E (Decoder.new h)
  | seek (d : Decoder) (p : Nat) : Reachable E d → Reachable E (d.seek p)
  | feed (d : Decoder) (input : List Nat) (d' : Decoder)
      (out : Nat × Option (List Nat)) : Reachable E d →
      d.feed E input = (d', .ok out) → Reachable E d'

/-- `n` tiles the span `[s, e)`: its children are contiguous and exactly
cover `[s, e)`.  This is what `parse_node` guarantees of every node it
produces, relative to the region it was parsed for. -/
def tiles (s e : Nat) (n : Node) : Bool :=
  decide (n.left.start = s) && decide (n.left.end_ = n.right.start) &&
    decide (n.right.end_ = e)

/-- Structural invariant of the traversal stack (top at head): the bottom
node tiles the whole header span `[0, e)` and every other node tiles one of
the two child spans of the node below it. -/
def chain (e : Nat) : List Node → Bool
  | [] => true
  | [n] => tiles 0 e n
  | n :: m :: rest =>
      (tiles m.left.start m.left.end_ n || tiles m.right.start m.right.end_ n) &&
        chain e (m :: rest)

/-- The position part of the stack invariant: the top stack node (if any)
contains the current position. -/
def goodTop (d : Decoder) : Prop :=
  ∀ n, d.stack.head? = some n → n.contains d.position = true

/-- The full invariant maintained by every reachable decoder state: without
a header the stack is empty; with a header `h`, `h` covers `[0, h.end)`, the
stack is a chain for the header span, and whenever `position` is in range
the top node contains it. -/
def Inv (d : Decoder) : Prop :=
  (d.header = none → d.stack = []) ∧
    ∀ h, d.header = some h →
      h.start = 0 ∧ chain h.end_ d.stack = true ∧
        (d.position < h.end_ → goodTop d)

theorem chain_tail {e : Nat} {n : Node} {rest : List Node}
    (h : chain e (n :: rest) = true) : chain e rest = true := by
  cases rest with
  | nil => simp [chain]
  | cons m rest =>
    simp only [chain, Bool.and_eq_true] at h
    exact h.2

theorem chain_contig {e : Nat} {n : Node} {rest : List Node}
    (h : chain e (n :: rest) = true) : n.left.end_ = n.right.start := by
  cases rest with
  | nil =>
    simp only [chain, tiles, Bool.and_eq_true, decide_eq_true_eq] at h
    exact h.1.2
  | cons m rest =>
    simp only [chain, tiles, Bool.and_eq_true, Bool.or_eq_true,
      decide_eq_true_eq] at h
    rcases h.1 with h1 | h1
    · exact h1.1.2
    · exact h1.1.2

theorem chain_dropWhile {e : Nat} (p : Node → Bool) :
    ∀ l : List Node, chain e l = true → chain e (l.dropWhile p) = true := by
  intro l
  induction l with
  | nil => intro h; simpa using h
  | cons n rest ih =>
    intro h
    rw [List.dropWhile_cons]
    split
    · exact ih (chain_tail h)
    · exact h

theorem chain_getLast {e : Nat} :
    ∀ l : List Node, chain e l = true →
      ∀ n, l.getLast? = some n → tiles 0 e n = true := by
  intro l
  induction l with
  | nil => simp
  | cons a rest ih =>
    intro h n hn
    cases rest with
    | nil =>
      simp only [List.getLast?_singleton, Option.some.injEq] at hn
      subst hn
      simpa only [chain] using h
    | cons b rest2 =>
      have h2 := chain_tail h
      have hn2 : (b :: rest2).getLast? = some n := by
        rwa [List.getLast?_cons_cons] at hn
      exact ih h2 n hn2

theorem tiles_contains {s e : Nat} {n : Node} {p : Nat}
    (h : tiles s e n = true) (h1 : s ≤ p) (h2 : p < e) :
    n.contains p = true := by
  simp only [tiles, Bool.and_eq_true, decide_eq_true_eq] at h
  simp only [Node.contains, Bool.and_eq_true, decide_eq_true_eq]
  omega

theorem head_dropWhile_false (p : Node → Bool) :
    ∀ l : List Node, ∀ x, (l.dropWhile p).head? = some x → p x = false := by
  intro l
  induction l with
  | nil => simp [List.dropWhile]
  | cons a rest ih =>
    intro x hx
    rw [List.dropWhile_cons] at hx
    by_cases hpa : p a = true
    · rw [if_pos hpa] at hx
      exact ih x hx
    · rw [if_neg hpa] at hx
      simp only [List.head?_cons, Option.some.injEq] at hx
      subst hx
      exact Bool.eq_false_iff.mpr hpa

theorem getLast_dropWhile (p : Node → Bool) :
    ∀ l : List Node, (∀ n, l.getLast? = some n → p n = false) →
      (l.dropWhile p).getLast? = l.getLast? := by
  intro l
  induction l with
  | nil => simp
  | cons a rest ih =>
    intro hl
    rw [List.dropWhile_cons]
    by_cases hpa : p a = true
    · rw [if_pos hpa]
      cases rest with
      | nil =>
        exfalso
        have := hl a (by simp)
        rw [this] at hpa
        exact Bool.false_ne_true hpa
      | cons b rest2 =>
        have heq : (a :: b :: rest2).getLast? = (b :: rest2).getLast? :=
          List.getLast?_cons_cons
        rw [heq]
        exact ih fun n hn => hl n (heq ▸ hn)
    · rw [if_neg hpa]

theorem seek_def (d : Decoder) (p : Nat) :
    d.seek p =
      if (d.header.map Region.end_).getD 0 ≤ p then { d with position := p }
      else { d with position := p,
                    stack := d.stack.dropWhile fun n => ! n.contains p } := rfl

theorem seek_position (d : Decoder) (p : Nat) : (d.seek p).position = p := by
  rw [seek_def]
  split <;> rfl

theorem seek_header (d : Decoder) (p : Nat) : (d.seek p).header = d.header := by
  rw [seek_def]
  split <;> rfl

theorem seek_header_hash (d : Decoder) (p : Nat) :
    (d.seek p).header_hash = d.header_hash := by
  rw [seek_def]
  split <;> rfl

theorem seek_stack_short {d : Decoder} {p : Nat}
    (h : (d.header.map Region.end_).getD 0 ≤ p) : (d.seek p).stack = d.stack := by
  rw [seek_def, if_pos h]

theorem seek_stack_pop {d : Decoder} {p : Nat} {hd : Region}
    (hh : d.header = some hd) (hp : p < hd.end_) :
    (d.seek p).stack = d.stack.dropWhile fun n => ! n.contains p := by
  rw [seek_def, if_neg]
  simp only [hh, Option.map_some', Option.getD_some]
  omega

theorem seek_goodTop {d : Decoder} {p : Nat} {hd : Region}
    (hh : d.header = some hd) (hp : p < hd.end_) : goodTop (d.seek p) := by
  intro n hn
  rw [seek_stack_pop hh hp] at hn
  have := head_dropWhile_false (fun n => ! n.contains p) _ n hn
  rw [seek_position]
  simpa using this

theorem seek_inv {d : Decoder} {p : Nat} (h : Inv d) : Inv (d.seek p) := by
  constructor
  · intro hnone
    rw [seek_header] at hnone
    have hstack := h.1 hnone
    rw [seek_stack_short (by simp [hnone])]
    exact hstack
  · intro hd hh
    rw [seek_header] at hh
    obtain ⟨h0, hchain, -⟩ := h.2 hd hh
    by_cases hcase : p < hd.end_
    · refine ⟨h0, ?_, fun _ => seek_goodTop hh hcase⟩
      rw [seek_stack_pop hh hcase]
      exact chain_dropWhile _ _ hchain
    · have hshort : (d.header.map Region.end_).getD 0 ≤ p := by
        simp only [hh, Option.map_some', Option.getD_some]
        omega
      refine ⟨h0, ?_, ?_⟩
      · rw [seek_stack_short hshort]
        exact hchain
      · intro hlt
        rw [seek_position] at hlt
        exact absurd hlt hcase

theorem state_noheader_elim {E : Ext} {d : Decoder}
    (h : d.state E = .NoHeader) : d.header = none := by
  cases hh : d.header with
  | none => rfl
  | some hd =>
    simp only [Decoder.state, hh] at h
    split at h
    · exact absurd h (by simp)
    · split at h <;> exact absurd h (by simp)

theorem state_chunk_elim {E : Ext} {d : Decoder} {r : Region}
    (h : d.state E = .Chunk r) :
    ∃ hd, d.header = some hd ∧ d.position < hd.end_ ∧
      r = currentRegion d hd ∧ r.len ≤ E.CHUNK_SIZE := by
  cases hh : d.header with
  | none => simp only [Decoder.state, hh] at h; exact absurd h (by simp)
  | some hd =>
    simp only [Decoder.state, hh] at h
    split at h
    · exact absurd h (by simp)
    · next hlt =>
      split at h
      · next hlen =>
        cases h
        exact ⟨hd, rfl, by omega, rfl, hlen⟩
      · exact absurd h (by simp)

theorem state_node_elim {E : Ext} {d : Decoder} {r : Region}
    (h : d.state E = .Node r) :
    ∃ hd, d.header = some hd ∧ d.position < hd.end_ ∧
      r = currentRegion d hd ∧ E.CHUNK_SIZE < r.len := by
  cases hh : d.header with
  | none => simp only [Decoder.state, hh] at h; exact absurd h (by simp)
  | some hd =>
    simp only [Decoder.state, hh] at h
    split at h
    · exact absurd h (by simp)
    · next hlt =>
      split at h
      · exact absurd h (by simp)
      · next hlen =>
        cases h
        exact ⟨hd, rfl, by omega, rfl, by omega⟩

theorem currentRegion_nil {d : Decoder} {hd : Region} (hstk : d.stack = []) :
    currentRegion d hd = hd := by
  unfold currentRegion
  rw [hstk]
  rfl

theorem currentRegion_cons {d : Decoder} {hd : Region} {n : Node}
    {rest : List Node} (hstk : d.stack = n :: rest) :
    currentRegion d hd =
      if n.left.contains d.position then n.left else n.right := by
  unfold currentRegion
  rw [hstk]
  rfl

theorem currentRegion_contains {d : Decoder} {hd : Region} (hInv : Inv d)
    (hh : d.header = some hd) (hp : d.position < hd.end_) :
    (currentRegion d hd).contains d.position = true := by
  obtain ⟨h0, hchain, hpos⟩ := hInv.2 hd hh
  cases hstk : d.stack with
  | nil =>
    rw [currentRegion_nil hstk]
    simp only [Region.contains, Bool.and_eq_true, decide_eq_true_eq]
    omega
  | cons n rest =>
    rw [currentRegion_cons hstk]
    have hn := hpos hp n (by rw [hstk]; rfl)
    have hcontig : n.left.end_ = n.right.start := chain_contig (hstk ▸ hchain)
    simp only [Node.contains, Bool.and_eq_true, decide_eq_true_eq] at hn
    split
    · next hl => exact hl
    · next hl =>
      simp only [Region.contains, Bool.and_eq_true, decide_eq_true_eq] at hl ⊢
      omega

theorem push_chain {d : Decoder} {hd : Region} {node : Node} (hInv : Inv d)
    (hh : d.header = some hd) (_hp : d.position < hd.end_)
    (ht : tiles (currentRegion d hd).start (currentRegion d hd).end_ node = true) :
    chain hd.end_ (node :: d.stack) = true := by
  obtain ⟨h0, hchain, -⟩ := hInv.2 hd hh
  cases hstk : d.stack with
  | nil =>
    rw [currentRegion_nil hstk] at ht
    rw [h0] at ht
    simpa only [chain] using ht
  | cons n rest =>
    rw [currentRegion_cons hstk] at ht
    simp only [chain, Bool.and_eq_true, Bool.or_eq_true]
    refine ⟨?_, hstk ▸ hchain⟩
    split at ht
    · exact Or.inl ht
    · exact Or.inr ht

theorem parse_node_ok {E : Ext} {r : Region} {bytes : List Nat} {node : Node}
    (h : Region.parse_node E r bytes = .ok node) :
    tiles r.start r.end_ node = true := by
  simp only [Region.parse_node] at h
  split at h
  · next hc =>
    injection h with h1
    subst h1
    simp only [tiles, Bool.and_eq_true, decide_eq_true_eq]
    exact ⟨⟨hc.1, hc.2.1⟩, hc.2.2⟩
  · exact absurd h (by simp)

theorem parse_node_err {E : Ext} {r : Region} {bytes : List Nat}
    (h : ¬((E.decodeNode r bytes).1.start = r.start ∧
        (E.decodeNode r bytes).1.end_ = (E.decodeNode r bytes).2.start ∧
        (E.decodeNode r bytes).2.end_ = r.end_)) :
    Region.parse_node E r bytes = .error .MalformedNode := by
  simp only [Region.parse_node]
  rw [if_neg h]

theorem readVerify_ok {E : Ext} {input : List Nat} {len digest : Nat}
    {bytes : List Nat} (h : readVerify E input len digest = .ok bytes) :
    len ≤ input.length ∧ bytes = input.take len ∧
      E.hash (input.take len) = digest := by
  unfold readVerify at h
  split at h
  · exact absurd h (by simp)
  · next h1 =>
    split at h
    · exact absurd h (by simp)
    · next h2 =>
      cases h
      refine ⟨by omega, rfl, by simpa using h2⟩

theorem readVerify_ok_intro {E : Ext} {input : List Nat} {len digest : Nat}
    (h1 : len ≤ input.length) (h2 : E.hash (input.take len) = digest) :
    readVerify E input len digest = .ok (input.take len) := by
  unfold readVerify
  rw [if_neg (by omega), if_neg (by simp [h2])]

theorem feed_dispatch_noheader {E : Ext} {d : Decoder} (input : List Nat)
    (hs : d.state E = .NoHeader) : d.feed E input = d.feed_header E input := by
  unfold Decoder.feed
  rw [hs]

theorem feed_dispatch_eof {E : Ext} {d : Decoder} (input : List Nat)
    (hs : d.state E = .Eof) : d.feed E input = (d, .ok (0, none)) := by
  unfold Decoder.feed
  rw [hs]

theorem feed_dispatch_chunk {E : Ext} {d : Decoder} {r : Region}
    (input : List Nat) (hs : d.state E = .Chunk r) :
    d.feed E input = d.feed_chunk E input r := by
  unfold Decoder.feed
  rw [hs]

theorem feed_dispatch_node {E : Ext} {d : Decoder} {r : Region}
    (input : List Nat) (hs : d.state E = .Node r) :
    d.feed E input = d.feed_node E input r := by
  unfold Decoder.feed
  rw [hs]

theorem feed_inv {E : Ext} {d : Decoder} {input : List Nat} {d' : Decoder}
    {out : Nat × Option (List Nat)} (hInv : Inv d)
    (h : d.feed E input = (d', .ok out)) : Inv d' := by
  cases hs : d.state E with
  | NoHeader =>
    rw [feed_dispatch_noheader input hs] at h
    have hnone := state_noheader_elim hs
    have hstack := hInv.1 hnone
    unfold Decoder.feed_header at h
    split at h
    · exact absurd h (by simp)
    · next bytes hv =>
      injection h with h1 h2
      subst h1
      constructor
      · intro hcontra
        exact absurd hcontra (by simp)
      · intro h' hh'
        simp only [Option.some.injEq] at hh'
        refine ⟨?_, ?_, ?_⟩
        · rw [← hh']
          rfl
        · show chain h'.end_ d.stack = true
          rw [hstack]
          rfl
        · intro _ n hn
          simp only [hstack, List.head?_nil] at hn
          exact Option.noConfusion hn
  | Eof =>
    rw [feed_dispatch_eof input hs] at h
    injection h with h1 h2
    subst h1
    exact hInv
  | Chunk r =>
    rw [feed_dispatch_chunk input hs] at h
    unfold Decoder.feed_chunk at h
    split at h
    · exact absurd h (by simp)
    · next bytes hv =>
      injection h with h1 h2
      subst h1
      exact seek_inv hInv
  | Node r =>
    rw [feed_dispatch_node input hs] at h
    unfold Decoder.feed_node at h
    split at h
    · exact absurd h (by simp)
    · next bytes hv =>
      split at h
      · exact absurd h (by simp)
      · next node hpn =>
        injection h with h1 h2
        subst h1
        obtain ⟨hd, hh, hp, hr, -⟩ := state_node_elim hs
        have ht := parse_node_ok hpn
        rw [hr] at ht
        constructor
        · intro hcontra
          rw [show ({d with stack := node :: d.stack} : Decoder).header
              = d.header from rfl, hh] at hcontra
          exact Option.noConfusion hcontra
        · intro h' hh'
          rw [show ({d with stack := node :: d.stack} : Decoder).header
              = d.header from rfl, hh] at hh'
          injection hh' with hh2
          subst hh2
          obtain ⟨h0, -, -⟩ := hInv.2 hd hh
          refine ⟨h0, ?_, ?_⟩
          · show chain hd.end_ (node :: d.stack) = true
            exact push_chain hInv hh hp ht
          · intro hplt n hn
            show n.contains d.position = true
            rw [show ({d with stack := node :: d.stack} : Decoder).stack
                = node :: d.stack from rfl] at hn
            simp only [List.head?_cons, Option.some.injEq] at hn
            subst hn
            have hc := currentRegion_contains hInv hh hp
            simp only [Region.contains, Bool.and_eq_true, decide_eq_true_eq] at hc
            exact tiles_contains ht hc.1 hc.2

/-- Every state reachable from `Decoder::new` by `seek` and successful
`feed` calls satisfies the structural invariant. -/
theorem reachable_inv {E : Ext} {d : Decoder} (h : Reachable E d) : Inv d := by
  induction h with
  | new h =>
    constructor
    · intro _; rfl
    · intro h' hh'
      exact absurd hh' (by simp [Decoder.new])
  | seek d p _ ih => exact seek_inv ih
  | feed d input d' out _ hfeed ih => exact feed_inv ih hfeed

theorem needed_noheader {E : Ext} {d : Decoder} (hs : d.state E = .NoHeader) :
    d.needed E = (0, E.HEADER_SIZE) := by
  unfold Decoder.needed
  rw [hs]

theorem needed_eof {E : Ext} {d : Decoder} (hs : d.state E = .Eof) :
    d.needed E = (0, 0) := by
  unfold Decoder.needed
  rw [hs]

theorem needed_chunk {E : Ext} {d : Decoder} {r : Region}
    (hs : d.state E = .Chunk r) : d.needed E = (r.encoded_offset, r.len) := by
  unfold Decoder.needed
  rw [hs]

theorem needed_node {E : Ext} {d : Decoder} {r : Region}
    (hs : d.state E = .Node r) : d.needed E = (r.encoded_offset, E.NODE_SIZE) := by
  unfold Decoder.needed
  rw [hs]

theorem readVerify_error_not_short {E : Ext} {input : List Nat}
    {len digest : Nat} {e : Error} (hlen : len ≤ input.length)
    (h : readVerify E input len digest = .error e) : e = .HashMismatch := by
  unfold readVerify at h
  split at h
  · next hshort => omega
  · split at h
    · injection h with h1
      exact h1.symm
    · exact absurd h (by simp)

theorem dropWhile_idem (p : Node → Bool) (l : List Node) :
    (l.dropWhile p).dropWhile p = l.dropWhile p := by
  induction l with
  | nil => rfl
  | cons a rest ih =>
    rw [List.dropWhile_cons]
    split
    · exact ih
    · next hpa => rw [List.dropWhile_cons, if_neg hpa]

theorem set_position_self {d : Decoder} {p : Nat} (h : d.position = p) :
    { d with position := p } = d := by
  cases d
  cases h
  rfl

/-- A concrete instantiation of the external collaborators, used to exhibit
concrete runs of the decoder: every digest is 0 and every hash check
passes, the header advertises two content bytes, and node records split
their region after its first byte. -/
def Etest : Ext where
  HEADER_SIZE := 1
  NODE_SIZE := 1
  CHUNK_SIZE := 1
  hash := fun _ => 0
  parseHeader := fun _ => (2, 1, 0)
  decodeNode := fun r _ =>
    (⟨r.start, r.start + 1, r.encoded_offset + 1, 0⟩,
     ⟨r.start + 1, r.end_, r.encoded_offset + 2, 0⟩)

/-- The header region produced by `Etest`. -/
def hdr : Region := ⟨0, 2, 1, 0⟩

/-- The root node produced by `Etest` for `hdr`. -/
def n1 : Node := ⟨⟨0, 1, 2, 0⟩, ⟨1, 2, 3, 0⟩⟩

/-- Decoder after feeding the header under `Etest`. -/
def d1 : Decoder := ⟨0, some hdr, 0, []⟩

/-- Decoder after additionally feeding the root node under `Etest`. -/
def d2 : Decoder := ⟨0, some hdr, 0, [n1]⟩

/-- Decoder after additionally feeding the first chunk under `Etest`. -/
def d3 : Decoder := ⟨0, some hdr, 1, [n1]⟩

theorem reach_d1 : Reachable Etest d1 :=
  Reachable.feed (Decoder.new 0) [9] d1 (1, none) (Reachable.new 0) rfl

theorem reach_d2 : Reachable Etest d2 :=
  Reachable.feed d1 [7] d2 (1, none) reach_d1 rfl

/-- C1: Stack invariant.  In every decoder state reachable from `new` by
`seek` calls and successful `feed` calls (which is exactly the set of states
observed after every `seek` and every successful `feed`), if the header is
set, `position` is below the header's end, and the stack is non-empty, then
`position` lies inside the combined region of the top stack node, and inside
one of its two child regions — the region the `state` resolver picks. -/
theorem C1_stack_invariant {E : Ext} {d : Decoder} (hreach : Reachable E d)
    {hd : Region} (hh : d.header = some hd) (hp : d.position < hd.end_)
    {n : Node} (hn : d.stack.head? = some n) :
    n.contains d.position = true ∧
      (n.left.contains d.position = true ∨
        n.right.contains d.position = true) := by
  have hInv := reachable_inv hreach
  obtain ⟨h0, hchain, hpos⟩ := hInv.2 hd hh
  have hc := hpos hp n hn
  refine ⟨hc, ?_⟩
  cases hstk : d.stack with
  | nil =>
    rw [hstk] at hn
    exact absurd hn (by simp)
  | cons a rest =>
    rw [hstk] at hn
    simp only [List.head?_cons, Option.some.injEq] at hn
    subst hn
    have hcontig := chain_contig (hstk ▸ hchain)
    simp only [Node.contains, Bool.and_eq_true, decide_eq_true_eq] at hc
    by_cases hl : a.left.contains d.position = true
    · exact Or.inl hl
    · right
      simp only [Region.contains, Bool.and_eq_true, decide_eq_true_eq] at hl ⊢
      omega

theorem C1_stack_invariant_witness :
    d2.header = some hdr ∧ d2.position < hdr.end_ ∧ d2.stack.head? = some n1 ∧
      (n1.contains d2.position = true ∧
        (n1.left.contains d2.position = true ∨
          n1.right.contains d2.position = true)) :=
  ⟨rfl, by decide, rfl, C1_stack_invariant reach_d2 rfl (by decide) rfl⟩

/-- C2: error atomicity of `feed`.  Whenever `feed` returns an error (of any
of the three kinds), the decoder is returned exactly as it was: every
fallible step of every handler precedes the first state mutation. -/
theorem C2_feed_error_atomic {E : Ext} (d : Decoder) (input : List Nat)
    {d' : Decoder} {e : Error} (h : d.feed E input = (d', .error e)) :
    d' = d := by
  cases hs : d.state E with
  | NoHeader =>
    rw [feed_dispatch_noheader input hs] at h
    unfold Decoder.feed_header at h
    split at h
    · injection h with h1 h2
      exact h1.symm
    · exact absurd h (by simp)
  | Eof =>
    rw [feed_dispatch_eof input hs] at h
    exact absurd h (by simp)
  | Chunk r =>
    rw [feed_dispatch_chunk input hs] at h
    unfold Decoder.feed_chunk at h
    split at h
    · injection h with h1 h2
      exact h1.symm
    · exact absurd h (by simp)
  | Node r =>
    rw [feed_dispatch_node input hs] at h
    unfold Decoder.feed_node at h
    split at h
    · injection h with h1 h2
      exact h1.symm
    · split at h
      · injection h with h1 h2
        exact h1.symm
      · exact absurd h (by simp)

theorem C2_feed_error_atomic_witness :
    Decoder.feed Etest d1 [] = (d1, .error .ShortInput) ∧ d1 = d1 :=
  ⟨rfl, C2_feed_error_atomic d1 []
    (rfl : Decoder.feed Etest d1 [] = (d1, Except.error Error.ShortInput))⟩

/-- C3: chunk feed postcondition.  For a decoder in state `Chunk region`
with `position` inside the region, a successful `feed` verifies
`region.len()` bytes against `region.hash`, returns `consumed` equal to the
full chunk length, returns as output the suffix of the verified bytes
starting at `chunk_offset = position - region.start`, and ends by seeking
to `region.end`, so the new position is `region.end` and the stack
invariant is repaired. -/
theorem C3_chunk_feed {E : Ext} {d : Decoder} {region : Region}
    {input : List Nat} {d' : Decoder} {consumed : Nat}
    {out : Option (List Nat)} (hs : d.state E = .Chunk region)
    (_hlo : region.start ≤ d.position) (_hhi : d.position < region.end_)
    (h : d.feed E input = (d', .ok (consumed, out))) :
    E.hash (input.take region.len) = region.hash ∧
      consumed = region.len ∧
      out = some ((input.take region.len).drop (d.position - region.start)) ∧
      d' = d.seek region.end_ ∧
      d'.position = region.end_ ∧
      (∀ hd, d'.header = some hd → d'.position < hd.end_ → goodTop d') := by
  rw [feed_dispatch_chunk input hs] at h
  unfold Decoder.feed_chunk at h
  split at h
  · exact absurd h (by simp)
  · next bytes hv =>
    obtain ⟨hlen, hbytes, hhash⟩ := readVerify_ok hv
    injection h with h1 h2
    injection h2 with h3
    injection h3 with h4 h5
    subst h1
    subst hbytes
    refine ⟨hhash, ?_, ?_, rfl, seek_position d region.end_, ?_⟩
    · rw [← h4, List.length_take]
      omega
    · rw [← h5]
    · intro hd hhd hp
      rw [seek_header] at hhd
      rw [seek_position] at hp
      exact seek_goodTop hhd hp

theorem C3_chunk_feed_witness :
    Decoder.state Etest d2 = State.Chunk n1.left ∧
      n1.left.start ≤ d2.position ∧ d2.position < n1.left.end_ ∧
      Decoder.feed Etest d2 [5] = (d3, .ok (1, some [5])) ∧
      (Etest.hash ([5].take n1.left.len) = n1.left.hash ∧
        1 = n1.left.len ∧
        (some [5] : Option (List Nat)) =
          some (([5].take n1.left.len).drop (d2.position - n1.left.start)) ∧
        d3 = d2.seek n1.left.end_ ∧
        d3.position = n1.left.end_ ∧
        (∀ hd, d3.header = some hd → d3.position < hd.end_ → goodTop d3)) :=
  ⟨by decide, by decide, by decide, rfl,
    C3_chunk_feed (by decide) (by decide) (by decide)
      (rfl : Decoder.feed Etest d2 [5] = (d3, .ok (1, some [5])))⟩

/-- C4: over-feed tolerance and consumed bound.  For every decoder state
and every input buffer, a successful `feed` consumes exactly the size
advertised by `needed()` immediately before the call, and whenever the
buffer is at least that size `feed` never fails with `ShortInput`, so no
state needs more than the advertised size to make progress. -/
theorem C4_consumed_needed {E : Ext} (d : Decoder) (input : List Nat) :
    (∀ d' consumed out, d.feed E input = (d', .ok (consumed, out)) →
        consumed = (d.needed E).2) ∧
      ((d.needed E).2 ≤ input.length →
        ∀ d' e, d.feed E input = (d', .error e) → e ≠ .ShortInput) := by
  cases hs : d.state E with
  | NoHeader =>
    rw [needed_noheader hs]
    constructor
    · intro d' consumed out h
      rw [feed_dispatch_noheader input hs] at h
      unfold Decoder.feed_header at h
      split at h
      · exact absurd h (by simp)
      · injection h with h1 h2
        injection h2 with h3
        injection h3 with h4 h5
        exact h4.symm
    · intro hlen d' e h
      rw [feed_dispatch_noheader input hs] at h
      unfold Decoder.feed_header at h
      split at h
      · next e2 hv =>
        injection h with h1 h2
        injection h2 with h3
        have := readVerify_error_not_short hlen hv
        rw [← h3, this]
        decide
      · exact absurd h (by simp)
  | Eof =>
    rw [needed_eof hs]
    constructor
    · intro d' consumed out h
      rw [feed_dispatch_eof input hs] at h
      injection h with h1 h2
      injection h2 with h3
      injection h3 with h4 h5
      exact h4.symm
    · intro hlen d' e h
      rw [feed_dispatch_eof input hs] at h
      exact absurd h (by simp)
  | Chunk r =>
    rw [needed_chunk hs]
    constructor
    · intro d' consumed out h
      rw [feed_dispatch_chunk input hs] at h
      unfold Decoder.feed_chunk at h
      split at h
      · exact absurd h (by simp)
      · next bytes hv =>
        obtain ⟨hlen, hbytes, -⟩ := readVerify_ok hv
        injection h with h1 h2
        injection h2 with h3
        injection h3 with h4 h5
        rw [← h4, hbytes, List.length_take]
        simp only
        omega
    · intro hlen d' e h
      rw [feed_dispatch_chunk input hs] at h
      unfold Decoder.feed_chunk at h
      split at h
      · next e2 hv =>
        injection h with h1 h2
        injection h2 with h3
        have := readVerify_error_not_short hlen hv
        rw [← h3, this]
        decide
      · exact absurd h (by simp)
  | Node r =>
    rw [needed_node hs]
    constructor
    · intro d' consumed out h
      rw [feed_dispatch_node input hs] at h
      unfold Decoder.feed_node at h
      split at h
      · exact absurd h (by simp)
      · split at h
        · exact absurd h (by simp)
        · injection h with h1 h2
          injection h2 with h3
          injection h3 with h4 h5
          exact h4.symm
    · intro hlen d' e h
      rw [feed_dispatch_node input hs] at h
      unfold Decoder.feed_node at h
      split at h
      · next e2 hv =>
        injection h with h1 h2
        injection h2 with h3
        have := readVerify_error_not_short hlen hv
        rw [← h3, this]
        decide
      · next bytes hv =>
        split at h
        · next e2 hpn =>
          injection h with h1 h2
          injection h2 with h3
          have : e2 = Error.MalformedNode := by
            simp only [Region.parse_node] at hpn
            split at hpn
            · exact absurd hpn (by simp)
            · injection hpn with h6
              exact h6.symm
          rw [← h3, this]
          decide
        · exact absurd h (by simp)

theorem C4_consumed_needed_witness :
    (Decoder.needed Etest d1).2 = 1 ∧
      Decoder.feed Etest d1 [7] = (d2, .ok (1, none)) ∧ 1 = (Decoder.needed Etest d1).2 :=
  ⟨by decide, rfl,
    (C4_consumed_needed (E := Etest) d1 [7]).1 d2 1 none
      (rfl : Decoder.feed Etest d1 [7] = (d2, .ok (1, none)))⟩

/-- C5: seek semantics.  `seek p` sets `position` to `p` unconditionally;
when there is no header, or when `p` is at or past the header end, the
stack is unchanged; otherwise the stack is exactly the result of popping
top nodes while the top does not contain `p` (`dropWhile`), which stops at
the first containing node; and the resulting stack is always a tail
segment of the stack before the call (seek never pushes).  With the stack
top at the head of the list, the Rust `Vec` prefix relation is the list
suffix relation here. -/
theorem C5_seek_semantics (d : Decoder) (p : Nat) :
    (d.seek p).position = p ∧
      (d.header = none → (d.seek p).stack = d.stack) ∧
      (∀ hd, d.header = some hd → hd.end_ ≤ p → (d.seek p).stack = d.stack) ∧
      (∀ hd, d.header = some hd → p < hd.end_ →
        (d.seek p).stack = d.stack.dropWhile fun n => ! n.contains p) ∧
      (d.seek p).stack.IsSuffix d.stack := by
  refine ⟨seek_position d p, ?_, ?_, ?_, ?_⟩
  · intro hh
    exact seek_stack_short (by simp [hh])
  · intro hd hh hge
    exact seek_stack_short (by simp [hh]; omega)
  · intro hd hh hlt
    exact seek_stack_pop hh hlt
  · by_cases hc : (d.header.map Region.end_).getD 0 ≤ p
    · rw [seek_stack_short hc]
    · rw [seek_def, if_neg hc]
      exact List.dropWhile_suffix _

theorem C5_seek_semantics_witness :
    (d2.seek 1).position = 1 ∧
      (d2.seek 1).stack = d2.stack.dropWhile fun n => ! n.contains 1 :=
  ⟨(C5_seek_semantics d2 1).1,
    (C5_seek_semantics d2 1).2.2.2.1 hdr rfl (by decide)⟩

/-- C6: the bottom node anchors the stack.  In every reachable decoder
state with a header, the bottom-most stack node (if any) tiles the whole
header span `[0, header.end)` (the header starts at 0), hence contains
every in-range position, and a seek to any `p` below the header end leaves
the bottom node in place. -/
theorem C6_bottom_anchor {E : Ext} {d : Decoder} (hreach : Reachable E d)
    {hd : Region} (hh : d.header = some hd)
    {n : Node} (hbot : d.stack.getLast? = some n) :
    hd.start = 0 ∧ tiles 0 hd.end_ n = true ∧
      (∀ p, p < hd.end_ → n.contains p = true) ∧
      (∀ p, p < hd.end_ → (d.seek p).stack.getLast? = some n) := by
  have hInv := reachable_inv hreach
  obtain ⟨h0, hchain, -⟩ := hInv.2 hd hh
  have htile := chain_getLast _ hchain n hbot
  refine ⟨h0, htile, fun p hp => tiles_contains htile (Nat.zero_le p) hp, ?_⟩
  intro p hp
  rw [seek_stack_pop hh hp]
  rw [getLast_dropWhile _ _ ?_]
  · exact hbot
  · intro m hm
    rw [hbot] at hm
    injection hm with hm2
    subst hm2
    have := tiles_contains htile (Nat.zero_le p) hp
    simp [this]

theorem C6_bottom_anchor_witness :
    d2.header = some hdr ∧ d2.stack.getLast? = some n1 ∧
      (1 < hdr.end_ → (d2.seek 1).stack.getLast? = some n1) :=
  ⟨rfl, rfl, (C6_bottom_anchor reach_d2 rfl rfl).2.2.2 1⟩

/-- C7: `needed()` is a pure function of the current state (in this
embedding every operation is a pure function of the decoder value; the
source takes `&self`) and maps the four states to exactly the advertised
pairs: `NoHeader` to `(0, HEADER_SIZE)`, `Eof` to the completion sentinel
`(0, 0)`, `Chunk r` to `(r.encoded_offset, r.len())` and `Node r` to
`(r.encoded_offset, NODE_SIZE)`. -/
theorem C7_needed_map {E : Ext} (d : Decoder) :
    (d.state E = .NoHeader → d.needed E = (0, E.HEADER_SIZE)) ∧
      (d.state E = .Eof → d.needed E = (0, 0)) ∧
      (∀ r, d.state E = .Chunk r → d.needed E = (r.encoded_offset, r.len)) ∧
      (∀ r, d.state E = .Node r → d.needed E = (r.encoded_offset, E.NODE_SIZE)) :=
  ⟨needed_noheader, needed_eof, fun _ => needed_chunk, fun _ => needed_node⟩

theorem C7_needed_map_witness :
    Decoder.state Etest d1 = State.Node hdr ∧
      Decoder.needed Etest d1 = (hdr.encoded_offset, Etest.NODE_SIZE) :=
  ⟨by decide, (C7_needed_map (E := Etest) d1).2.2.2 hdr (by decide)⟩

/-- C8: node feed postcondition.  For a decoder in state `Node region`, a
successful `feed` verifies `NODE_SIZE` bytes against `region.hash`, parses
them into a node whose children tile `region`'s span, pushes it (stack one
longer, position, header, and header hash unchanged), and returns
`consumed = NODE_SIZE` with no output; when the verified bytes parse to
children that do not tile the span, `feed` fails with `MalformedNode`
(distinct from `HashMismatch`) and the decoder is unchanged, so nothing is
pushed. -/
theorem C8_node_feed {E : Ext} {d : Decoder} {region : Region}
    (input : List Nat) (hs : d.state E = .Node region) :
    (∀ d' consumed out, d.feed E input = (d', .ok (consumed, out)) →
        E.hash (input.take E.NODE_SIZE) = region.hash ∧
          consumed = E.NODE_SIZE ∧ out = none ∧
          ∃ node, Region.parse_node E region (input.take E.NODE_SIZE) = .ok node ∧
            tiles region.start region.end_ node = true ∧
            d' = { d with stack := node :: d.stack } ∧
            d'.stack.length = d.stack.length + 1 ∧
            d'.position = d.position ∧ d'.header = d.header ∧
            d'.header_hash = d.header_hash) ∧
      (∀ bytes, readVerify E input E.NODE_SIZE region.hash = .ok bytes →
        Region.parse_node E region bytes = .error .MalformedNode →
        d.feed E input = (d, .error .MalformedNode)) := by
  constructor
  · intro d' consumed out h
    rw [feed_dispatch_node input hs] at h
    unfold Decoder.feed_node at h
    split at h
    · exact absurd h (by simp)
    · next bytes hv =>
      obtain ⟨hlen, hbytes, hhash⟩ := readVerify_ok hv
      split at h
      · exact absurd h (by simp)
      · next node hpn =>
        injection h with h1 h2
        injection h2 with h3
        injection h3 with h4 h5
        subst h1
        subst hbytes
        refine ⟨hhash, h4.symm, h5.symm,
          node, hpn, parse_node_ok hpn, rfl, ?_, rfl, rfl, rfl⟩
        simp only [List.length_cons]
  · intro bytes hv hpn
    rw [feed_dispatch_node input hs]
    unfold Decoder.feed_node
    rw [hv]
    show (match Region.parse_node E region bytes with
      | Except.error e => (d, Except.error e)
      | Except.ok node =>
          ({ d with stack := node :: d.stack },
            Except.ok (E.NODE_SIZE, (none : Option (List Nat))))) =
      (d, Except.error Error.MalformedNode)
    rw [hpn]

theorem C8_node_feed_witness :
    Decoder.state Etest d1 = State.Node hdr ∧
      Decoder.feed Etest d1 [7] = (d2, .ok (1, none)) ∧
      (1 = Etest.NODE_SIZE ∧ (none : Option (List Nat)) = none ∧
        d2.stack.length = d1.stack.length + 1) :=
  ⟨by decide, rfl,
    let post := (C8_node_feed (E := Etest) [7]
      (by decide : Decoder.state Etest d1 = State.Node hdr)).1 d2 1 none
      (rfl : Decoder.feed Etest d1 [7] = (d2, .ok (1, none)))
    ⟨post.2.1, post.2.2.1, post.2.2.2.choose_spec.2.2.2.1⟩⟩

/-- C9: implicit chunk-slicing safety.  In every reachable decoder state
whose `state()` is `Chunk region`, the invariant gives
`region.start <= position < region.end`, so the subtraction
`chunk_offset = position - region.start` cannot underflow and
`chunk_offset` is strictly below the verified chunk length, keeping the
output slice in bounds. -/
theorem C9_chunk_slice_safe {E : Ext} {d : Decoder} {region : Region}
    (hreach : Reachable E d) (hs : d.state E = .Chunk region) :
    region.start ≤ d.position ∧ d.position < region.end_ ∧
      d.position - region.start < region.len := by
  have hInv := reachable_inv hreach
  obtain ⟨hd, hh, hp, hr, -⟩ := state_chunk_elim hs
  have hc := currentRegion_contains hInv hh hp
  rw [← hr] at hc
  simp only [Region.contains, Bool.and_eq_true, decide_eq_true_eq] at hc
  refine ⟨hc.1, hc.2, ?_⟩
  simp only [Region.len]
  omega

theorem C9_chunk_slice_safe_witness :
    Decoder.state Etest d2 = State.Chunk n1.left ∧
      (n1.left.start ≤ d2.position ∧ d2.position < n1.left.end_ ∧
        d2.position - n1.left.start < n1.left.len) :=
  ⟨by decide, C9_chunk_slice_safe reach_d2 (by decide)⟩

/-- C10: `seek` is idempotent.  Calling `seek p` twice in a row yields
exactly the state after calling it once: the second call re-sets the same
position, and either the short-circuit applies again or the top of the
stack already contains `p`, so nothing more is popped. -/
theorem C10_seek_idempotent (d : Decoder) (p : Nat) :
    (d.seek p).seek p = d.seek p := by
  by_cases hc : (d.header.map Region.end_).getD 0 ≤ p
  · rw [seek_def (d.seek p) p,
      if_pos (show ((d.seek p).header.map Region.end_).getD 0 ≤ p by
        rw [seek_header]; exact hc)]
    exact set_position_self (seek_position d p)
  · have hhd : ∃ hd, d.header = some hd ∧ p < hd.end_ := by
      cases hhd : d.header with
      | none => rw [hhd] at hc; simp at hc
      | some hd =>
        rw [hhd] at hc
        simp only [Option.map_some', Option.getD_some] at hc
        exact ⟨hd, rfl, by omega⟩
    obtain ⟨hd, hhd, hp⟩ := hhd
    rw [seek_def (d.seek p) p,
      if_neg (show ¬ ((d.seek p).header.map Region.end_).getD 0 ≤ p by
        rw [seek_header]; exact hc)]
    have hstk : (d.seek p).stack = d.stack.dropWhile fun n => ! n.contains p :=
      seek_stack_pop hhd hp
    rw [hstk, dropWhile_idem]
    rw [← hstk]
    exact set_position_self (seek_position d p)

end Bao
